import Mathlib

/-!
Verification of the animated-caption rendering pipeline of the
firebase-text-animator repository.

Strings of the TypeScript source are embedded as `List Char`, JavaScript
numbers as `ℚ`, and fallible operations as `Option` or `Except`.  Each
definition is a direct translation of a function or expression of the
source; the doc comment of a definition names the file and lines it
embeds.  Definitions whose doc comment starts with `Modelled from the
spec:` embed behaviour of an external collaborator (the encoder) that the
specification describes but the repository does not contain.
-/

/-- Backslash character (code 92), written via `Char.ofNat` for clarity. -/
def bsC : Char := Char.ofNat 92

/-- Single-quote character (code 39). -/
def sqC : Char := Char.ofNat 39

/-- Colon character (code 58). -/
def colC : Char := Char.ofNat 58

/-- Percent character (code 37). -/
def pctC : Char := Char.ofNat 37

/-- Left-brace character (code 123), the opener of a drawtext expansion. -/
def lbrC : Char := Char.ofNat 123

/-- Forward-slash character (code 47). -/
def slashC : Char := Char.ofNat 47

/-- Concatenation of the images of a character-to-string map, the shape of
a JavaScript global single-character `replace`. -/
def charMapConcat (f : Char → List Char) : List Char → List Char
  | [] => []
  | c :: s => f c ++ charMapConcat f s

/-- JavaScript `s.replace(/target/g, rep)` for a single-character pattern:
every occurrence of `target` is replaced by `rep`, and replacements are
not rescanned. -/
def replaceAllChar (target : Char) (rep : List Char) (s : List Char) : List Char :=
  charMapConcat (fun c => if c = target then rep else [c]) s

/-- Shallow embedding of `escapeFFmpegDrawtext` from
`src/src/app/api/render-video/route.ts` lines 49-55: backslash becomes a
doubled backslash, a single quote becomes quote-backslash-quote-quote, a
colon becomes backslash-colon and a percent becomes backslash-percent,
applied in that order. -/
def escapeFFmpegDrawtext (s : List Char) : List Char :=
  replaceAllChar pctC [bsC, pctC]
    (replaceAllChar colC [bsC, colC]
      (replaceAllChar sqC [sqC, bsC, sqC, sqC]
        (replaceAllChar bsC [bsC, bsC] s)))

/-- The per-character single-pass substitution that the four chained
replacements of `escapeFFmpegDrawtext` are claimed to implement. -/
def escChar (c : Char) : List Char :=
  if c = bsC then [bsC, bsC]
  else if c = sqC then [sqC, bsC, sqC, sqC]
  else if c = colC then [bsC, colC]
  else if c = pctC then [bsC, pctC]
  else [c]

/-- Modelled from the spec: the quoting layer of the target filter-graph
syntax (repository code passes the escaped text to the external encoder,
which is not part of the repository).  Outside quotes a backslash escapes
the next character and a single quote opens a quoted span; inside a quoted
span every character is literal until the closing quote. -/
def unq : Bool → List Char → List Char
  | _, [] => []
  | true, c :: rest => if c = sqC then unq false rest else c :: unq true rest
  | false, c :: rest =>
      if c = bsC then
        match rest with
        | [] => []
        | d :: rest2 => d :: unq false rest2
      else if c = sqC then unq true rest
      else c :: unq false rest

/-- Modelled from the spec: the draw-text expansion pass of the external
encoder.  A backslash followed by any character yields that character, a
percent followed by a left brace starts an expansion (never produced by
the escaper, modelled as failure), any other character is literal. -/
def expandText : List Char → Option (List Char)
  | [] => some []
  | c :: rest =>
      if c = bsC then
        match rest with
        | [] => none
        | d :: rest2 => (expandText rest2).map (fun l => d :: l)
      else if c = pctC then
        match rest with
        | [] => some [c]
        | d :: _ => if d = lbrC then none
                    else (expandText rest).map (fun l => c :: l)
      else (expandText rest).map (fun l => c :: l)

/-- Per-character content of the escaped text after the quoting layer of
the filter-graph syntax has been undone (proof-level description used to
relate `unq` and `expandText` to `escapeFFmpegDrawtext`). -/
def argChar (c : Char) : List Char :=
  if c = bsC then [bsC, bsC]
  else if c = sqC then [sqC]
  else if c = colC then [bsC, colC]
  else if c = pctC then [bsC, pctC]
  else [c]

/-- Segment shape of `src/src/app/types.ts` lines 3-9 (`AnimationSegmentSchema`):
text, emotion, an animation list and two numeric times. -/
structure AnimationSegment where
  text : List Char
  emotion : List Char
  animations : List (List Char)
  startTime : ℚ
  endTime : ℚ
deriving DecidableEq

/-- Active-segment computation of the client renderer,
`src/src/components/animation-preview.tsx` line 685 (and the identical
filter at lines 188-192 and 835-839):
`data.filter(segment => time >= segment.startTime && time < segment.endTime)`. -/
def activeSegmentsAt (data : List AnimationSegment) (t : ℚ) : List AnimationSegment :=
  data.filter (fun s => decide (t ≥ s.startTime) && decide (t < s.endTime))

/-- Duration fallback of `totalDuration`,
`src/src/components/animation-preview.tsx` lines 614-622: when the media
element reports no usable duration, the maximum `endTime` is folded with
initial value 0 over a non-empty segment list, else the constant 10. -/
def totalDurationFromData : Option (List AnimationSegment) → ℚ
  | some l => if 0 < l.length then l.foldl (fun m s => max m s.endTime) 0 else 10
  | none => 10

/-- `totalDuration` of `src/src/components/animation-preview.tsx` lines
614-622.  `mediaDuration = some d` models a finite reported duration
(JavaScript truthiness makes `d = 0` fall through to the fallback);
`none` models an absent or non-finite duration. -/
def totalDuration (mediaDuration : Option ℚ) (data : Option (List AnimationSegment)) : ℚ :=
  match mediaDuration with
  | some d => if d ≠ 0 then d else totalDurationFromData data
  | none => totalDurationFromData data

/-- `FRAME_RATE` constant of `src/src/components/animation-preview.tsx`
line 560. -/
def FRAME_RATE : ℚ := 25

/-- Frame count of the client-side sampler,
`src/src/components/animation-preview.tsx` line 675:
`numFrames = Math.floor(duration * FRAME_RATE)`, parameterised by the
rate. -/
def numFramesAt (duration rate : ℚ) : ℤ := ⌊duration * rate⌋

/-- The sample times of the capture loop,
`src/src/components/animation-preview.tsx` lines 683-684: frame index `i`
in `[0, numFrames)` is sampled at time `i / rate`. -/
def frameTimes (duration rate : ℚ) : List ℚ :=
  (List.range (numFramesAt duration rate).toNat).map (fun (i : ℕ) => ((i : ℚ) / rate))

/-- Progress values reported by the capture loop of `handleDownload`,
`src/src/components/animation-preview.tsx` line 701:
`setRenderProgress((i / numFrames) * 50)` for each frame index `i`. -/
def captureProgress (numFrames : ℕ) : List ℚ :=
  (List.range numFrames).map (fun (i : ℕ) => ((i : ℚ) / (numFrames : ℚ)) * 50)

/-- Progress values reported by the encode-stage callback,
`src/src/components/animation-preview.tsx` line 640:
`setRenderProgress(progress * 100)` for each fractional event. -/
def encodeProgress (events : List ℚ) : List ℚ := events.map (fun p => p * 100)

/-- The full sequence of values passed to `setRenderProgress` during one
successful render job of `src/src/components/animation-preview.tsx`:
the capture loop (line 701), the transition value 50 (line 716), the
encode events (line 640) and the reset to 0 in the `finally` block
(line 781). -/
def progressTrace (numFrames : ℕ) (events : List ℚ) : List ℚ :=
  captureProgress numFrames ++ [50] ++ encodeProgress events ++ [0]

/-- Boolean check that a list of reported progress values never
decreases. -/
def nondecreasing : List ℚ → Bool
  | [] => true
  | [_] => true
  | a :: b :: rest => decide (a ≤ b) && nondecreasing (b :: rest)

/-- JSON values as delivered by `req.json()` to the route handler. -/
inductive JsonVal where
  | str (s : List Char)
  | num (q : ℚ)
  | boolean (b : Bool)
  | null
  | arr (elems : List JsonVal)
  | obj (fields : List (List Char × JsonVal))

/-- Field lookup inside a JSON object, as `z.object` reads a property. -/
def getField (fields : List (List Char × JsonVal)) (key : List Char) : Option JsonVal :=
  (fields.find? (fun p => decide (p.1 = key))).map (fun p => p.2)

/-- `z.string()`: succeeds exactly on JSON strings. -/
def asString : JsonVal → Option (List Char)
  | .str s => some s
  | _ => none

/-- `z.number()`: succeeds exactly on JSON numbers. -/
def asNumber : JsonVal → Option ℚ
  | .num q => some q
  | _ => none

/-- Parsed segment of `AnimationSegmentSchemaWithFont`,
`src/src/app/api/render-video/route.ts` lines 37-42. -/
structure SegmentWithFont where
  text : List Char
  startTime : ℚ
  endTime : ℚ
  fontFamily : Option (List Char)
deriving DecidableEq

/-- `AnimationSegmentSchemaWithFont.safeParse` of
`src/src/app/api/render-video/route.ts` lines 37-42: `text` must be a
string, `startTime` and `endTime` numbers (no bounds), `fontFamily` an
optional string. -/
def parseSegmentWithFont : JsonVal → Option SegmentWithFont
  | .obj fs => do
      let t ← getField fs (("text").data) >>= asString
      let st ← getField fs (("startTime").data) >>= asNumber
      let en ← getField fs (("endTime").data) >>= asNumber
      let ff ← match getField fs (("fontFamily").data) with
               | none => some none
               | some j => (asString j).map some
      pure ⟨t, st, en, ff⟩
  | _ => none

/-- `z.array(AnimationSegmentSchemaWithFont)`: every element must parse. -/
def parseSegmentList : List JsonVal → Option (List SegmentWithFont)
  | [] => some []
  | j :: rest => do
      let s ← parseSegmentWithFont j
      let l ← parseSegmentList rest
      pure (s :: l)

/-- `RequestBodySchema.safeParse` of
`src/src/app/api/render-video/route.ts` lines 44-47 and 65-72:
`mediaUrl` must be a string accepted by the URL check (abstracted as the
parameter `isUrl`), `segments` an array of segments; no constraint on the
array length.  `none` models the 400 rejection of lines 67-72. -/
def parseRequestBody (isUrl : List Char → Bool) : JsonVal → Option (List Char × List SegmentWithFont)
  | .obj fs => do
      let u ← getField fs (("mediaUrl").data) >>= asString
      if isUrl u then
        match getField fs (("segments").data) with
        | some (.arr xs) => (parseSegmentList xs).map (fun segs => (u, segs))
        | _ => none
      else none
  | _ => none

/-- Concrete stand-in for the URL check of `z.string().url()` used in
closed witnesses: accepts strings starting with the http scheme. -/
def httpPrefixCheck (s : List Char) : Bool := (("http://").data).isPrefixOf s

/-- Request body with a valid media URL and an empty segment list. -/
def emptySegmentsBody : JsonVal :=
  .obj [((("mediaUrl").data), .str (("http://example.com/v.mp4").data)),
        ((("segments").data), .arr [])]

/-- Segment JSON with negative times and a reversed time window. -/
def badSegmentJson : JsonVal :=
  .obj [((("text").data), .str (("x").data)),
        ((("startTime").data), .num (-1)),
        ((("endTime").data), .num (-2))]

/-- The parse result of `badSegmentJson`. -/
def badSegment : SegmentWithFont := ⟨("x").data, -1, -2, none⟩

/-- JavaScript `toLowerCase` on the embedded strings. -/
def lowerChars (s : List Char) : List Char := s.map Char.toLower

/-- Insertion into a JavaScript `Map`: an existing key is overwritten in
place, a new key is appended, preserving insertion order
(`fontMap.set(...)` of `src/src/app/api/render-video/route.ts` line 22). -/
def jsMapSet (m : List (List Char × List Char)) (k v : List Char) :
    List (List Char × List Char) :=
  if (m.find? (fun p => decide (p.1 = k))).isSome then
    m.map (fun p => if p.1 = k then (k, v) else p)
  else m ++ [(k, v)]

/-- `file.toLowerCase().endsWith('.ttf')`,
`src/src/app/api/render-video/route.ts` line 20. -/
def hasTtfExt (file : List Char) : Bool :=
  ((".ttf").data).isSuffixOf (lowerChars file)

/-- `path.basename(file, '.ttf')` for a plain file name: the suffix is
removed only when it matches case-sensitively and is not the whole name
(`src/src/app/api/render-video/route.ts` line 21). -/
def stripTtfSuffix (file : List Char) : List Char :=
  if ((".ttf").data).isSuffixOf file && !(decide (file = (".ttf").data)) then
    file.take (file.length - 4)
  else file

/-- `path.join(fontsDir, file)` as used at
`src/src/app/api/render-video/route.ts` line 22. -/
def joinPath (dir file : List Char) : List Char := dir ++ [slashC] ++ file

/-- `initializeFonts` of `src/src/app/api/render-video/route.ts` lines
14-33, over a directory listing: each `.ttf` file contributes the
lower-cased family name derived from its base name, mapped to its joined
path. -/
def initializeFonts (fontsDir : List Char) (files : List (List Char)) :
    List (List Char × List Char) :=
  files.foldl (fun m file =>
    if hasTtfExt file then
      jsMapSet m (lowerChars (stripTtfSuffix file)) (joinPath fontsDir file)
    else m) []

/-- `fontMap.get(key)` on the embedded map. -/
def mapGet (m : List (List Char × List Char)) (k : List Char) : Option (List Char) :=
  (m.find? (fun p => decide (p.1 = k))).map (fun p => p.2)

/-- The designated default family name of
`src/src/app/api/render-video/route.ts` lines 79-80 and 95. -/
def robotoBoldKey : List Char := ("roboto-bold").data

/-- `defaultFontPath` computation of
`src/src/app/api/render-video/route.ts` lines 79-80:
`fontMap.get('roboto-bold') || (size > 0 ? first value : undefined)`. -/
def defaultFontPath (m : List (List Char × List Char)) : Option (List Char) :=
  match mapGet m robotoBoldKey with
  | some p => some p
  | none => m.head?.map (fun p => p.2)

/-- Requested-family key of `src/src/app/api/render-video/route.ts` line
95: `segment.fontFamily?.toLowerCase() || 'roboto-bold'` (an absent or
empty requested family falls back to the default key). -/
def requestedFontKey (ff : Option (List Char)) : List Char :=
  match ff with
  | some s => if lowerChars s = [] then robotoBoldKey else lowerChars s
  | none => robotoBoldKey

/-- Per-segment font resolution of
`src/src/app/api/render-video/route.ts` lines 79-96: the throw of lines
81-85 when no font initialised is `none`; otherwise
`fontMap.get(fontFamily) || defaultFontPath`. -/
def resolveFont (m : List (List Char × List Char)) (ff : Option (List Char)) :
    Option (List Char) :=
  match defaultFontPath m with
  | none => none
  | some d => some ((mapGet m (requestedFontKey ff)).getD d)

/-- One-entry catalog used by the font-resolution witness. -/
def catalogOne : List (List Char × List Char) :=
  [(robotoBoldKey, ("/app/public/fonts/Roboto-Bold.ttf").data)]

/-- Final artifact of the embedded (client-side) backend: either the
muxed audio+video output or the silent video renamed to the output name
(`src/unnamed/part_005` lines 236-251). -/
inductive EmbedArtifact where
  | muxed
  | silentVideo
deriving DecidableEq

/-- Environment of one embedded render job: the outcome of the audio
extraction attempt (`ffmpeg.exec`/`readFile` of `src/unnamed/part_005`
lines 163-175, `ok n` = an audio file of `n` bytes was produced,
`error` = the attempt threw), and whether the encode and mux execs
succeed. -/
structure EmbedEnv where
  extractAudio : Except (List Char) ℕ
  encodeOk : Bool
  muxOk : Bool

/-- The `audioExists` flag of `src/unnamed/part_005` lines 163-175: true
exactly when extraction succeeded and produced a non-empty file; an
exception is swallowed by the inner `catch` and leaves the flag false. -/
def audioTrackExists (r : Except (List Char) ℕ) : Bool :=
  match r with
  | .ok n => decide (0 < n)
  | .error _ => false

/-- Stage 3 of the embedded job, `src/unnamed/part_005` lines 217-251:
the silent video is always encoded; when audio exists it is muxed into
the final output, otherwise the silent video is renamed to the final
output.  Errors of the outer `try` surface as `Except.error`. -/
def runEmbeddedRender (env : EmbedEnv) : Except (List Char) EmbedArtifact :=
  if env.encodeOk = false then .error (("encode failed").data)
  else if audioTrackExists env.extractAudio = true then
    (if env.muxOk = true then .ok .muxed else .error (("mux failed").data))
  else .ok .silentVideo

/-- Environment of a job whose source media has no audio track: the
extraction exec throws. -/
def envNoAudio : EmbedEnv :=
  ⟨Except.error (("no audio stream").data), true, true⟩

/-- Concrete segment used by closed witnesses. -/
def segHello : AnimationSegment :=
  ⟨("hello").data, ("joy").data, [("fadeIn").data], 0, 2⟩

theorem charMapConcat_append (f : Char → List Char) (l1 l2 : List Char) :
    charMapConcat f (l1 ++ l2) = charMapConcat f l1 ++ charMapConcat f l2 := by
  induction l1 with
  | nil => rfl
  | cons c s ih => simp [charMapConcat, ih]

theorem escape_append (l1 l2 : List Char) :
    escapeFFmpegDrawtext (l1 ++ l2) = escapeFFmpegDrawtext l1 ++ escapeFFmpegDrawtext l2 := by
  simp [escapeFFmpegDrawtext, replaceAllChar, charMapConcat_append]

theorem escape_single (c : Char) : escapeFFmpegDrawtext [c] = escChar c := by
  by_cases h1 : c = bsC
  · subst h1; decide
  by_cases h2 : c = sqC
  · subst h2; decide
  by_cases h3 : c = colC
  · subst h3; decide
  by_cases h4 : c = pctC
  · subst h4; decide
  · simp [escapeFFmpegDrawtext, replaceAllChar, charMapConcat, escChar, h1, h2, h3, h4]

theorem escape_eq_charMap (s : List Char) :
    escapeFFmpegDrawtext s = charMapConcat escChar s := by
  induction s with
  | nil => rfl
  | cons c s ih =>
      have h : (c :: s) = [c] ++ s := rfl
      rw [h, escape_append, escape_single, ih]
      rfl

theorem charMapConcat_id (f : Char → List Char) (s : List Char)
    (h : ∀ c ∈ s, f c = [c]) : charMapConcat f s = s := by
  induction s with
  | nil => rfl
  | cons c t ih =>
      have hc := h c (by simp)
      have ht := ih (fun d hd => h d (by simp [hd]))
      simp [charMapConcat, hc, ht]

theorem unq_true_sq (t : List Char) : unq true (sqC :: t) = unq false t := by
  rw [unq.eq_def]; simp

theorem unq_true_other (c : Char) (t : List Char) (h : c ≠ sqC) :
    unq true (c :: t) = c :: unq true t := by
  rw [unq.eq_def]; simp [h]

theorem unq_false_sq (t : List Char) : unq false (sqC :: t) = unq true t := by
  rw [unq.eq_def]; simp [show ¬(sqC = bsC) by decide]

theorem unq_false_bs (d : Char) (t : List Char) :
    unq false (bsC :: d :: t) = d :: unq false t := by
  rw [unq.eq_def]; simp

theorem unq_false_other (c : Char) (t : List Char) (h1 : c ≠ bsC) (h2 : c ≠ sqC) :
    unq false (c :: t) = c :: unq false t := by
  rw [unq.eq_def]; simp [h1, h2]

theorem expand_bs (d : Char) (t : List Char) :
    expandText (bsC :: d :: t) = (expandText t).map (fun l => d :: l) := by
  rw [expandText.eq_def]; simp

theorem expand_other (c : Char) (t : List Char) (h1 : c ≠ bsC) (h2 : c ≠ pctC) :
    expandText (c :: t) = (expandText t).map (fun l => c :: l) := by
  rw [expandText.eq_def]; simp [h1, h2]

theorem unq_true_escChar (c : Char) (t : List Char) :
    unq true (escChar c ++ t) = argChar c ++ unq true t := by
  by_cases h1 : c = bsC
  · subst h1
    simp [escChar, argChar, unq_true_other, show bsC ≠ sqC by decide]
  by_cases h2 : c = sqC
  · subst h2
    simp [escChar, argChar, h1, unq_true_sq, unq_false_bs, unq_false_sq]
  by_cases h3 : c = colC
  · subst h3
    simp [escChar, argChar, h1, h2, unq_true_other, show bsC ≠ sqC by decide,
      show colC ≠ sqC by decide]
  by_cases h4 : c = pctC
  · subst h4
    simp [escChar, argChar, h1, h2, h3, unq_true_other, show bsC ≠ sqC by decide,
      show pctC ≠ sqC by decide]
  · simp [escChar, argChar, h1, h2, h3, h4, unq_true_other]

theorem unq_true_escape (s t : List Char) :
    unq true (escapeFFmpegDrawtext s ++ t) = charMapConcat argChar s ++ unq true t := by
  induction s with
  | nil => simp [escapeFFmpegDrawtext, replaceAllChar, charMapConcat]
  | cons c s ih =>
      have hsplit : escapeFFmpegDrawtext (c :: s) = escChar c ++ escapeFFmpegDrawtext s := by
        rw [escape_eq_charMap, escape_eq_charMap]; rfl
      rw [hsplit, List.append_assoc, unq_true_escChar, ih]
      simp [charMapConcat]

theorem expand_argChar (c : Char) (t : List Char) :
    expandText (argChar c ++ t) = (expandText t).map (fun l => c :: l) := by
  by_cases h1 : c = bsC
  · subst h1
    simp [argChar, expand_bs]
  by_cases h2 : c = sqC
  · subst h2
    simp [argChar, h1, expand_other, show sqC ≠ bsC by decide, show sqC ≠ pctC by decide]
  by_cases h3 : c = colC
  · subst h3
    simp [argChar, h1, h2, expand_bs]
  by_cases h4 : c = pctC
  · subst h4
    simp [argChar, h1, h2, h3, expand_bs]
  · simp [argChar, h1, h2, h3, h4, expand_other]

theorem expand_argMap (s : List Char) :
    expandText (charMapConcat argChar s) = some s := by
  induction s with
  | nil => rfl
  | cons c s ih =>
      have h : charMapConcat argChar (c :: s) = argChar c ++ charMapConcat argChar s := rfl
      rw [h, expand_argChar, ih]
      rfl

/-- Claim C1: for every segment list and query time `t`, the client
renderer's active-segment filter returns exactly the segments with
`startTime ≤ t < endTime` (start inclusive, end exclusive) and preserves
the original input order (the result is a sublist of the input). -/
theorem activeSegmentsAt_window_and_order (data : List AnimationSegment) (t : ℚ) :
    (∀ s, s ∈ activeSegmentsAt data t ↔ (s ∈ data ∧ s.startTime ≤ t ∧ t < s.endTime)) ∧
    (activeSegmentsAt data t).Sublist data := by
  constructor
  · intro s
    simp [activeSegmentsAt, List.mem_filter, ge_iff_le]
  · exact List.filter_sublist data

/-- Claim C2: `escapeFFmpegDrawtext` is total by construction and equals
the single-pass per-character substitution `escChar`, so the replacement
for a character never disturbs the replacement of any other position and
characters other than the four meta-characters pass through unchanged. -/
theorem escape_drawtext_single_pass (s : List Char) :
    escapeFFmpegDrawtext s = charMapConcat escChar s ∧
    ((∀ c ∈ s, c ≠ bsC ∧ c ≠ sqC ∧ c ≠ colC ∧ c ≠ pctC) →
      escapeFFmpegDrawtext s = s) := by
  refine ⟨escape_eq_charMap s, fun h => ?_⟩
  rw [escape_eq_charMap]
  apply charMapConcat_id
  intro c hc
  rcases h c hc with ⟨n1, n2, n3, n4⟩
  simp [escChar, n1, n2, n3, n4]

theorem escape_drawtext_single_pass_witness :
    (∀ c ∈ ("abc").data, c ≠ bsC ∧ c ≠ sqC ∧ c ≠ colC ∧ c ≠ pctC) ∧
    escapeFFmpegDrawtext (("abc").data) = ("abc").data :=
  ⟨by decide, (escape_drawtext_single_pass (("abc").data)).2 (by decide)⟩

/-- Claim C3: unescaping the quoted, escaped caption text with the
renderer's own unescape (filter-graph quote removal followed by the
draw-text expansion pass) restores the raw text exactly, for every
string including any combination of backslash, quote, colon and
percent. -/
theorem drawtext_unescape_roundtrip (s : List Char) :
    expandText (unq false (sqC :: (escapeFFmpegDrawtext s ++ [sqC]))) = some s := by
  have h1 : unq true [sqC] = [] := by decide
  rw [unq_false_sq, unq_true_escape, h1, List.append_nil, expand_argMap]

/-- Claim C4 counterexample: a request body whose segment list is empty
passes `RequestBodySchema.safeParse` (no rejection happens during
validation), contradicting the claimed `EmptyInput` failure. -/
theorem empty_segments_pass_validation :
    parseRequestBody httpPrefixCheck emptySegmentsBody =
      some ((("http://example.com/v.mp4").data), []) := by decide

/-- Claim C4 (amended): a render request whose segment list is empty is
accepted by validation — the schema constrains only the field shapes and
places no minimum on the segment array — and the job proceeds to
rendering; only shape violations are rejected with the 400 response. -/
theorem empty_segment_list_accepted (isUrl : List Char → Bool) (u : List Char)
    (h : isUrl u = true) :
    parseRequestBody isUrl
      (JsonVal.obj [((("mediaUrl").data), JsonVal.str u),
                    ((("segments").data), JsonVal.arr [])]) = some (u, []) := by
  have hred : parseRequestBody isUrl
      (JsonVal.obj [((("mediaUrl").data), JsonVal.str u),
                    ((("segments").data), JsonVal.arr [])]) =
      if isUrl u then some (u, []) else none := rfl
  rw [hred, if_pos h]

theorem empty_segment_list_accepted_witness :
    httpPrefixCheck (("http://a").data) = true ∧
    parseRequestBody httpPrefixCheck
      (JsonVal.obj [((("mediaUrl").data), JsonVal.str (("http://a").data)),
                    ((("segments").data), JsonVal.arr [])]) =
      some ((("http://a").data), []) :=
  ⟨by decide, empty_segment_list_accepted httpPrefixCheck (("http://a").data) (by decide)⟩

/-- Claim C9 counterexample: the segment schema admits a segment with a
negative start time and an end time before the start time, so the
claimed bounds `startTime ≥ 0` and `endTime > startTime` are not
enforced by the pipeline. -/
theorem invalid_segment_admitted :
    parseSegmentWithFont badSegmentJson = some badSegment ∧
    ¬ (0 ≤ badSegment.startTime ∧ badSegment.startTime < badSegment.endTime) := by
  constructor
  · decide
  · decide

/-- Claim C9 (amended): segment validation checks field types only — a
string text, numeric start and end times and an optional font family —
and admits arbitrary numeric times, with no bound checks. -/
theorem segment_times_unchecked (t : List Char) (a b : ℚ) :
    parseSegmentWithFont
      (JsonVal.obj [((("text").data), JsonVal.str t),
                    ((("startTime").data), JsonVal.num a),
                    ((("endTime").data), JsonVal.num b)]) = some ⟨t, a, b, none⟩ := rfl

theorem defaultFontPath_none_iff (m : List (List Char × List Char)) :
    defaultFontPath m = none ↔ m = [] := by
  cases m with
  | nil => simp [defaultFontPath, mapGet]
  | cons p rest =>
      unfold defaultFontPath mapGet
      cases hf : List.find? (fun q => decide (q.1 = robotoBoldKey)) (p :: rest) with
      | none => simp [hf]
      | some q => simp [hf]

/-- Claim C6: font resolution returns the catalog entry for the
lower-cased requested family when present, otherwise the designated
default path (roboto-bold, or the first catalog entry when roboto-bold
itself is absent), and fails — the throw of the route handler — exactly
when the catalog is empty; a request naming an absent family still
resolves to the default. -/
theorem font_resolution_default_fallback (m : List (List Char × List Char))
    (ff : Option (List Char)) :
    (resolveFont m ff = none ↔ m = []) ∧
    (∀ p, mapGet m (requestedFontKey ff) = some p → resolveFont m ff = some p) ∧
    (mapGet m (requestedFontKey ff) = none → resolveFont m ff = defaultFontPath m) ∧
    (∀ s, ff = some s → lowerChars s ≠ [] → requestedFontKey ff = lowerChars s) := by
  refine ⟨?_, ?_, ?_, ?_⟩
  · unfold resolveFont
    cases hd : defaultFontPath m with
    | none =>
        simp [(defaultFontPath_none_iff m).mp hd]
    | some d =>
        have hne : m ≠ [] := by
          intro hm
          subst hm
          simp [defaultFontPath, mapGet] at hd
        simp [hne]
  · intro p hp
    unfold resolveFont
    cases hd : defaultFontPath m with
    | none =>
        exfalso
        have hm := (defaultFontPath_none_iff m).mp hd
        subst hm
        simp [mapGet] at hp
    | some d => simp [hp]
  · intro hp
    unfold resolveFont
    cases hd : defaultFontPath m with
    | none => rfl
    | some d => simp [hp]
  · intro s hs hne
    subst hs
    simp [requestedFontKey, hne]

theorem font_resolution_default_fallback_witness :
    mapGet catalogOne (requestedFontKey (some (("Missing").data))) = none ∧
    resolveFont catalogOne (some (("Missing").data)) = defaultFontPath catalogOne :=
  ⟨by decide,
    (font_resolution_default_fallback catalogOne (some (("Missing").data))).2.2.1 (by decide)⟩

/-- Claim C7: in the embedded client-side backend, when the source media
has no usable audio track (the extraction exec throws or produces an
empty file) the job still completes: the silent intermediate video is
renamed into the final artifact and no audio error is surfaced to the
caller. -/
theorem silent_fallback_on_no_audio (env : EmbedEnv)
    (hno : audioTrackExists env.extractAudio = false) (henc : env.encodeOk = true) :
    runEmbeddedRender env = Except.ok EmbedArtifact.silentVideo ∧
    ∀ msg, runEmbeddedRender env ≠ Except.error msg := by
  have h : runEmbeddedRender env = Except.ok EmbedArtifact.silentVideo := by
    unfold runEmbeddedRender
    rw [henc, hno]
    simp
  exact ⟨h, fun msg => by simp [h]⟩

theorem silent_fallback_on_no_audio_witness :
    audioTrackExists envNoAudio.extractAudio = false ∧ envNoAudio.encodeOk = true ∧
    runEmbeddedRender envNoAudio = Except.ok EmbedArtifact.silentVideo :=
  ⟨by decide, by decide, (silent_fallback_on_no_audio envNoAudio (by decide) (by decide)).1⟩

theorem foldl_max_bounds (l : List AnimationSegment) (a : ℚ) :
    a ≤ l.foldl (fun m s => max m s.endTime) a ∧
    ∀ s ∈ l, s.endTime ≤ l.foldl (fun m s => max m s.endTime) a := by
  induction l generalizing a with
  | nil => exact ⟨le_refl a, by simp⟩
  | cons s0 rest ih =>
      simp only [List.foldl_cons]
      have h1 := (ih (max a s0.endTime)).1
      have h2 := (ih (max a s0.endTime)).2
      constructor
      · exact le_trans (le_max_left _ _) h1
      · intro s hs
        rcases List.mem_cons.mp hs with hs | hs
        · subst hs
          exact le_trans (le_max_right _ _) h1
        · exact h2 s hs

theorem foldl_max_attained (l : List AnimationSegment) (a : ℚ) :
    l.foldl (fun m s => max m s.endTime) a = a ∨
    l.foldl (fun m s => max m s.endTime) a ∈ l.map (fun s => s.endTime) := by
  induction l generalizing a with
  | nil => exact Or.inl rfl
  | cons s0 rest ih =>
      simp only [List.foldl_cons, List.map_cons]
      rcases ih (max a s0.endTime) with h | h
      · rcases max_choice a s0.endTime with hm | hm
        · exact Or.inl (by rw [h, hm])
        · exact Or.inr (by rw [h, hm]; exact List.mem_cons_self _ _)
      · exact Or.inr (List.mem_cons_of_mem _ h)

/-- Claim C10: in the client renderer, when the media element reports no
finite duration the job duration is the maximum `endTime` over the
segments (for segments satisfying the data-model bounds and a non-empty
list), and is exactly 10 when the segment list is null or empty. -/
theorem totalDuration_fallbacks (l : List AnimationSegment)
    (hinv : ∀ s ∈ l, 0 ≤ s.startTime ∧ s.startTime < s.endTime) (hne : l ≠ []) :
    (totalDuration none (some l) ∈ l.map (fun s => s.endTime) ∧
      ∀ s ∈ l, s.endTime ≤ totalDuration none (some l)) ∧
    totalDuration none none = 10 ∧ totalDuration none (some []) = 10 := by
  refine ⟨?_, rfl, rfl⟩
  have hlen : 0 < l.length := List.length_pos.mpr hne
  have heq : totalDuration none (some l) = l.foldl (fun m s => max m s.endTime) 0 := by
    simp [totalDuration, totalDurationFromData, hlen]
  obtain ⟨s0, hs0⟩ := List.exists_mem_of_ne_nil l hne
  have hpos : 0 < s0.endTime := lt_of_le_of_lt (hinv s0 hs0).1 (hinv s0 hs0).2
  have hub := (foldl_max_bounds l 0).2
  rw [heq]
  rcases foldl_max_attained l 0 with h | h
  · exfalso
    have hle := hub s0 hs0
    rw [h] at hle
    exact absurd hle (not_le.mpr hpos)
  · exact ⟨h, fun s hs => hub s hs⟩

theorem totalDuration_fallbacks_witness :
    (∀ s ∈ [segHello], 0 ≤ s.startTime ∧ s.startTime < s.endTime) ∧ [segHello] ≠ [] ∧
    totalDuration none (some [segHello]) ∈ [segHello].map (fun s => s.endTime) :=
  ⟨by decide, by decide, ((totalDuration_fallbacks [segHello] (by decide) (by decide)).1).1⟩

/-- Claim C5 counterexample: doubling the frame rate alone does not
double the frame count — at duration 1/10 s the sampler produces 2
frames at rate 25 but 5 frames at rate 50 — so the frame count is not
linear in the rate. -/
theorem frame_count_not_linear_in_rate :
    numFramesAt (1/10) (2 * 25) = 5 ∧ numFramesAt (1/10) 25 = 2 ∧
    numFramesAt (1/10) (2 * 25) ≠ 2 * numFramesAt (1/10) 25 := by
  have h1 : numFramesAt (1/10) (2 * 25) = 5 := by
    norm_num [numFramesAt, Int.floor_eq_iff]
  have h2 : numFramesAt (1/10) 25 = 2 := by
    norm_num [numFramesAt, Int.floor_eq_iff]
  exact ⟨h1, h2, by rw [h1, h2]; decide⟩

/-- Claim C5 (amended): the sampler produces exactly `⌊D * R⌋` frames,
frame `i` is sampled at time `i / R`, and scaling the rate by a natural
factor `k ≥ 1` multiplies the frame count by `k` up to a defect of at
most `k - 1` (exact linearity fails because of the floor). -/
theorem frame_count_floor_and_scaling (D R : ℚ) (k : ℕ) (hk : 1 ≤ k) :
    numFramesAt D R = ⌊D * R⌋ ∧
    (frameTimes D R).length = (numFramesAt D R).toNat ∧
    (∀ i (hi : i < (frameTimes D R).length), (frameTimes D R).get ⟨i, hi⟩ = (i : ℚ) / R) ∧
    (k : ℤ) * numFramesAt D R ≤ numFramesAt D ((k : ℚ) * R) ∧
    numFramesAt D ((k : ℚ) * R) ≤ (k : ℤ) * numFramesAt D R + ((k : ℤ) - 1) := by
  have hmul : D * ((k : ℚ) * R) = (k : ℚ) * (D * R) := by ring
  refine ⟨rfl, by simp only [frameTimes, List.length_map, List.length_range], ?_, ?_, ?_⟩
  · intro i hi
    simp only [frameTimes, List.get_eq_getElem, List.getElem_map, List.getElem_range]
  · unfold numFramesAt
    rw [hmul]
    apply Int.le_floor.mpr
    push_cast
    have h := Int.floor_le (D * R)
    have hk0 : (0 : ℚ) ≤ (k : ℚ) := by positivity
    nlinarith
  · unfold numFramesAt
    rw [hmul]
    have hk0 : (0 : ℚ) < (k : ℚ) := by exact_mod_cast Nat.pos_of_ne_zero (by omega)
    have h1 : (k : ℚ) * (D * R) < (k : ℚ) * (⌊D * R⌋ + 1) := by
      have := Int.lt_floor_add_one (D * R)
      nlinarith
    have h2 : ⌊(k : ℚ) * (D * R)⌋ < (k : ℤ) * (⌊D * R⌋ + 1) := by
      apply Int.floor_lt.mpr
      push_cast
      linarith
    have h3 : (k : ℤ) * (⌊D * R⌋ + 1) = (k : ℤ) * ⌊D * R⌋ + (k : ℤ) := by ring
    omega

theorem frame_count_floor_and_scaling_witness :
    (1 : ℕ) ≤ 2 ∧
    ((2 : ℕ) : ℤ) * numFramesAt 3 25 ≤ numFramesAt 3 (((2 : ℕ) : ℚ) * 25) :=
  ⟨by decide, (frame_count_floor_and_scaling 3 25 2 (by decide)).2.2.2.1⟩

theorem nondecreasing_of_pairwise (l : List ℚ) (h : List.Pairwise (· ≤ ·) l) :
    nondecreasing l = true := by
  induction l with
  | nil => rfl
  | cons a rest ih =>
      cases rest with
      | nil => rfl
      | cons b rest2 =>
          have hab : a ≤ b := (List.pairwise_cons.mp h).1 b (by simp)
          have ht := (List.pairwise_cons.mp h).2
          simp [nondecreasing, hab, ih ht]

theorem getLast?_append_right (l1 l2 : List ℚ) (b : ℚ) (h : l2.getLast? = some b) :
    (l1 ++ l2).getLast? = some b := by
  induction l1 with
  | nil => simpa using h
  | cons a t ih =>
      have hne : t ++ l2 ≠ [] := by
        intro hc
        have h2 : l2 = [] := (List.append_eq_nil.mp hc).2
        subst h2
        simp at h
      obtain ⟨c, r, hcr⟩ := List.exists_cons_of_ne_nil hne
      rw [List.cons_append, hcr, List.getLast?_cons_cons, ← hcr, ih]

/-- Claim C8 counterexample: for a one-frame job whose encode stage
reports completion, the reported progress sequence is 0, 50, 100 and then
the reset 0, which is neither non-decreasing nor final at 100. -/
theorem progress_trace_not_monotone_to_100 :
    ¬ (nondecreasing (progressTrace 1 [1]) = true ∧
       (progressTrace 1 [1]).getLast? = some 100) := by
  have hcap : captureProgress 1 = [0] := by
    simp [captureProgress, List.range_succ]
  have htr : progressTrace 1 [1] = [0, 50, 100, 0] := by
    simp [progressTrace, hcap, encodeProgress]
  rw [htr]
  rintro ⟨-, h2⟩
  have hl : ([0, 50, 100, 0] : List ℚ).getLast? = some 0 := rfl
  rw [hl] at h2
  exact absurd h2 (by decide)

/-- Claim C8 (amended): reported progress is non-decreasing through the
capture stage and its transition to 50, and every capture-stage value is
at most 50; but encode events are reported as the raw fraction times 100
on the full scale rather than mapped into the upper half, and the last
reported value of a job is the cleanup reset 0, not 100. -/
theorem progress_capture_monotone_reset_zero (n : ℕ) (es : List ℚ) :
    nondecreasing (captureProgress n ++ [50]) = true ∧
    (∀ x ∈ captureProgress n, x ≤ 50) ∧
    encodeProgress es = es.map (fun p => p * 100) ∧
    (progressTrace n es).getLast? = some 0 := by
  have hbound : ∀ x ∈ captureProgress n, x ≤ 50 := by
    intro x hx
    unfold captureProgress at hx
    rw [List.mem_map] at hx
    obtain ⟨i, hi, rfl⟩ := hx
    rw [List.mem_range] at hi
    have hn0 : 0 < n := lt_of_le_of_lt (Nat.zero_le i) hi
    have hnq : (0 : ℚ) < (n : ℚ) := by exact_mod_cast hn0
    have hle : (i : ℚ) ≤ (n : ℚ) := by exact_mod_cast le_of_lt hi
    have hdiv : (i : ℚ) / (n : ℚ) ≤ 1 := (div_le_one hnq).mpr hle
    nlinarith
  refine ⟨?_, hbound, rfl, ?_⟩
  · apply nondecreasing_of_pairwise
    rw [List.pairwise_append]
    refine ⟨?_, List.pairwise_singleton _ _, ?_⟩
    · unfold captureProgress
      rw [List.pairwise_map]
      have hmono : ∀ a b : ℕ, a < b →
          ((a : ℚ) / (n : ℚ)) * 50 ≤ ((b : ℚ) / (n : ℚ)) * 50 := by
        intro a b hab
        rcases Nat.eq_zero_or_pos n with hn | hn
        · subst hn
          norm_num
        · have hnq : (0 : ℚ) < (n : ℚ) := by exact_mod_cast hn
          have h1 : (a : ℚ) ≤ (b : ℚ) := by exact_mod_cast le_of_lt hab
          have h2 : (a : ℚ) / (n : ℚ) ≤ (b : ℚ) / (n : ℚ) :=
            (div_le_div_iff_of_pos_right hnq).mpr h1
          nlinarith
      exact List.Pairwise.imp (fun hab => hmono _ _ hab) (List.pairwise_lt_range n)
    · intro x hx y hy
      rw [List.mem_singleton] at hy
      subst hy
      exact hbound x hx
  · unfold progressTrace
    apply getLast?_append_right
    rfl

theorem progress_capture_monotone_reset_zero_witness :
    nondecreasing (captureProgress 2 ++ [50]) = true ∧
    (progressTrace 2 [1]).getLast? = some 0 :=
  ⟨(progress_capture_monotone_reset_zero 2 [1]).1,
   (progress_capture_monotone_reset_zero 2 [1]).2.2.2⟩
